import Mathlib

/-!
Shallow embedding of the rust-color-visuals repository (src/main.rs), a
Perlin-flow particle visualizer, together with proofs about the claims of
its specification.

Modelling conventions:
* 32-bit floats are modelled as exact rationals.
* External library functions that the repository merely calls (the Perlin
  noise evaluator, cos, sin, and the random generator) are abstracted as
  function parameters; everything the repository itself computes is
  translated operation by operation from src/main.rs.
* The pixel frame buffer is a flat list of byte values (R,G,B,A
  interleaved, row major), mirroring the pixels frame slice.
-/

/-- 2D vector of rationals, modelling glam::Vec2 as used by the program. -/
structure Vec2 where
  x : ℚ
  y : ℚ
deriving DecidableEq

instance : Add Vec2 := ⟨fun a b => ⟨a.x + b.x, a.y + b.y⟩⟩

/-- Componentwise scalar multiplication, modelling vec * scalar on glam::Vec2. -/
def Vec2.scale (k : ℚ) (v : Vec2) : Vec2 := ⟨k * v.x, k * v.y⟩

/-- Vec2::ZERO. -/
def Vec2.zero : Vec2 := ⟨0, 0⟩

theorem Vec2.add_def (a b : Vec2) : a + b = ⟨a.x + b.x, a.y + b.y⟩ := rfl

/-- Particle record from src/main.rs lines 15-21. -/
structure Particle where
  pos : Vec2
  vel : Vec2
  age : ℕ
  alive : Bool
deriving DecidableEq

/-- Particle::new (src/main.rs lines 24-31): zero velocity, zero age, alive. -/
def Particle.new (pos : Vec2) : Particle := ⟨pos, Vec2.zero, 0, true⟩

/-- Largest value of the u32 age counter. -/
def U32_MAX : ℕ := 2 ^ 32 - 1

/-- u32::saturating_add on age values. -/
def satAdd32 (a b : ℕ) : ℕ := min (a + b) U32_MAX

/-- Truncation toward zero, modelling Rust float-to-int casts before
saturation (f32 as i32 truncates the fractional part). -/
def trunc0 (q : ℚ) : ℤ := if 0 ≤ q then ⌊q⌋ else -⌊-q⌋

/-- Rust f32-to-i32 `as` cast: truncate toward zero, saturating at the
i32 range limits. -/
def castI32 (q : ℚ) : ℤ := max (-(2 ^ 31)) (min (2 ^ 31 - 1) (trunc0 q))

/-- Rust f32-to-u8 `as` cast: truncate toward zero, saturating at 0 and 255. -/
def castU8 (q : ℚ) : ℕ := min 255 (trunc0 q).toNat

/-- u8::saturating_add. -/
def satAdd8 (a b : ℕ) : ℕ := min (a + b) 255

/-- One integration sub-step of step_particles (src/main.rs lines 282-287):
velocity gains the sampled direction scaled by force, is damped by friction,
position integrates the new velocity, age saturating-increments.  The flow
direction function dirAt abstracts noise_dir applied to the current Perlin
state, scale and depth. -/
def subStep (dirAt : Vec2 → Vec2) (force friction : ℚ) (p : Particle) : Particle :=
  let dir := dirAt p.pos
  let vel1 := p.vel + Vec2.scale force dir
  let vel2 := Vec2.scale friction vel1
  { pos := p.pos + vel2, vel := vel2, age := satAdd32 p.age 1, alive := p.alive }

/-- ColorMode enum (src/main.rs lines 34-39). -/
inductive ColorMode where
  | direction
  | age
  | curl
deriving DecidableEq

/-- Params record (src/main.rs lines 68-79); float fields as rationals. -/
structure Params where
  scale : ℚ
  z : ℚ
  z_step : ℚ
  force : ℚ
  friction : ℚ
  steps_per_frame : ℕ
  spawn_count : ℕ
  fade : ℚ
  color_mode : ColorMode
  paused : Bool
deriving DecidableEq

/-- Initial parameter values from App::new (src/main.rs lines 129-140). -/
def initialParams (height : ℕ) : Params :=
  { scale := 0.004
    z := 0
    z_step := 0.004
    force := 0.8
    friction := 0.985
    steps_per_frame := 300
    spawn_count := height / 4
    fade := 0.03
    color_mode := ColorMode.direction
    paused := false }

/-- cycle_color_mode (src/main.rs lines 198-204). -/
def cycleColorMode : ColorMode → ColorMode
  | ColorMode.direction => ColorMode.age
  | ColorMode.age => ColorMode.curl
  | ColorMode.curl => ColorMode.direction

/-- The keys handle_key reacts to (src/main.rs lines 157-196); other
covers every unmapped key. -/
inductive Key where
  | space
  | s
  | r
  | lbracket
  | rbracket
  | comma
  | period
  | slash
  | equals
  | key9
  | key0
  | f
  | g
  | c
  | other
deriving DecidableEq

/-- handle_key restricted to its effect on Params (src/main.rs lines
157-196).  Keys S and R act on App state outside Params (snapshot file,
noise seed) and leave the parameter record unchanged. -/
def handleKey (k : Key) (p : Params) : Params :=
  match k with
  | Key.space => { p with paused := !p.paused }
  | Key.s => p
  | Key.r => p
  | Key.lbracket => { p with scale := max (p.scale * 0.9) 0.0005 }
  | Key.rbracket => { p with scale := min (p.scale * 1.111) 0.05 }
  | Key.comma => { p with z_step := max (p.z_step * 0.9) 0.0001 }
  | Key.period => { p with z_step := min (p.z_step * 1.111) 0.05 }
  | Key.slash => { p with force := max (p.force * 0.9) 0.05 }
  | Key.equals => { p with force := min (p.force * 1.111) 5.0 }
  | Key.key9 => { p with friction := max (p.friction - 0.002) 0.90 }
  | Key.key0 => { p with friction := min (p.friction + 0.002) 0.9995 }
  | Key.f => { p with fade := min (p.fade + 0.01) 0.2 }
  | Key.g => { p with fade := max (p.fade - 0.01) 0.0 }
  | Key.c => { p with color_mode := cycleColorMode p.color_mode }
  | Key.other => p

/-- The documented clamped ranges of the five tunable numeric parameters. -/
def paramsInRange (p : Params) : Prop :=
  0.0005 ≤ p.scale ∧ p.scale ≤ 0.05 ∧
  0.0001 ≤ p.z_step ∧ p.z_step ≤ 0.05 ∧
  0.05 ≤ p.force ∧ p.force ≤ 5.0 ∧
  0.90 ≤ p.friction ∧ p.friction ≤ 0.9995 ∧
  0.0 ≤ p.fade ∧ p.fade ≤ 0.2

/-- Outcome of one save_png call (src/main.rs lines 212-224).  A panic
(from the expect on ImageBuffer::from_raw) aborts the process; an err is
an anyhow error returned to the caller; ok is a successful write. -/
inductive SaveOutcome where
  | ok
  | err
  | panicked
deriving DecidableEq

/-- save_png control flow (src/main.rs lines 212-224): the frame copy is
handed to ImageBuffer::from_raw, which yields None unless the buffer length
is exactly width*height*4; the expect call turns that None into a panic.
Otherwise img.save may fail (abstracted by the writeOk flag) and the error
is returned, or the write succeeds. -/
def savePng (bufLen w h : ℕ) (writeOk : Bool) : SaveOutcome :=
  if bufLen = w * h * 4 then
    if writeOk then SaveOutcome.ok else SaveOutcome.err
  else SaveOutcome.panicked

/-- Whether the simulation loop is still running after the handle_key
branch for VirtualKeyCode::S (src/main.rs line 167): the caller discards
the returned Result, so only a panic stops the process. -/
def snapshotKeepsRunning (bufLen w h : ℕ) (writeOk : Bool) : Bool :=
  match savePng bufLen w h writeOk with
  | SaveOutcome.panicked => false
  | _ => true

/-- NoiseField state: the Perlin instance is fully determined by its seed
(noise::Perlin::new is a pure function of the seed). -/
structure NoiseField where
  seed : ℕ
deriving DecidableEq

/-- Perlin::new. -/
def perlinNew (seed : ℕ) : NoiseField := ⟨seed⟩

/-- reseed_noise (src/main.rs lines 206-210) restricted to the noise
state: the freshly drawn seed replaces the Perlin instance. -/
def reseedNoise (newSeed : ℕ) : NoiseField := perlinNew newSeed

/-- noise_dir (src/main.rs lines 424-428).  perlinGet abstracts the pure
library evaluator noise::Perlin::get as a function of the seed and the
three coordinates; cosF and sinF abstract f32::cos and f32::sin; tau
stands for the f32 constant TAU.  The noise scalar at
(p.x*scale, p.y*scale, z) is multiplied by tau and the direction is the
cos/sin pair of that angle. -/
def noise_dir (perlinGet : ℕ → ℚ → ℚ → ℚ → ℚ) (cosF sinF : ℚ → ℚ) (tau : ℚ)
    (nf : NoiseField) (scale z : ℚ) (p : Vec2) : Vec2 :=
  let n := perlinGet nf.seed (p.x * scale) (p.y * scale) z
  let angle := n * tau
  ⟨cosF angle, sinF angle⟩

/-- The byte conversion used on each hsv_to_rgb output channel
(src/main.rs lines 61-65): clamp the scaled channel to [0, 255], then
cast to u8 (truncation toward zero). -/
def byteC (x : ℚ) : ℕ := (trunc0 (max 0 (min 255 x))).toNat

/-- hsv_to_rgb (src/main.rs lines 41-66), translated operation by
operation: clamp saturation and value, take the fractional part of the
hue (shifting negative fractional parts up by one), split the hue into a
sector index i and an offset f, form p, q, t, select the sector by
i.rem_euclid(6), and convert each channel to a byte. -/
def hsv_to_rgb (h s v : ℚ) : ℕ × ℕ × ℕ :=
  let s1 := max 0 (min 1 s)
  let v1 := max 0 (min 1 v)
  let hf := h - trunc0 h
  let h1 := if hf < 0 then hf + 1 else hf
  let i : ℤ := ⌊h1 * 6⌋
  let f : ℚ := h1 * 6 - i
  let p := v1 * (1 - s1)
  let q := v1 * (1 - f * s1)
  let t := v1 * (1 - (1 - f) * s1)
  let rgb : ℚ × ℚ × ℚ :=
    if i.emod 6 = 0 then (v1, t, p)
    else if i.emod 6 = 1 then (q, v1, p)
    else if i.emod 6 = 2 then (p, v1, t)
    else if i.emod 6 = 3 then (p, q, v1)
    else if i.emod 6 = 4 then (t, p, v1)
    else (v1, p, q)
  (byteC (rgb.1 * 255), byteC (rgb.2.1 * 255), byteC (rgb.2.2 * 255))

/-- Modelled from the spec: the expected sector pattern of fully
saturated, full-value HSV on the six sixths of the hue circle, written
directly from the specification's description of the standard conversion
(one channel at full value, one at zero, the third ramping with the
in-sector offset). -/
def specSectorRGB (h : ℚ) : ℕ × ℕ × ℕ :=
  if h < 1 / 6 then (255, byteC (h * 6 * 255), 0)
  else if h < 2 / 6 then (byteC ((1 - (h * 6 - 1)) * 255), 255, 0)
  else if h < 3 / 6 then (0, 255, byteC ((h * 6 - 2) * 255))
  else if h < 4 / 6 then (0, byteC ((1 - (h * 6 - 3)) * 255), 255)
  else if h < 5 / 6 then (byteC ((h * 6 - 4) * 255), 0, 255)
  else (255, 0, byteC ((1 - (h * 6 - 5)) * 255))

/-- The per-channel fade operation of apply_fade (src/main.rs lines
233-235): scale the byte by fade_scale as a float and cast back to u8. -/
def fadeByte (fs : ℚ) (v : ℕ) : ℕ := castU8 ((v : ℚ) * fs)

/-- The fade loop body of apply_fade over the frame bytes, mirroring
chunks_exact_mut(4) (src/main.rs lines 232-237): each R/G/B byte is
scaled by fade_scale, alpha is forced to 255; a trailing part shorter
than one pixel is left untouched. -/
def fadeMap (fs : ℚ) : List ℕ → List ℕ
  | r :: g :: b :: _ :: rest =>
      fadeByte fs r :: fadeByte fs g :: fadeByte fs b :: 255 :: fadeMap fs rest
  | other => other

/-- apply_fade (src/main.rs lines 226-238): fast-path return when
fade_scale is at least one, otherwise scale every pixel. -/
def apply_fade (fade : ℚ) (frame : List ℕ) : List ℕ :=
  let fade_scale := 1 - fade
  if 1 ≤ fade_scale then frame else fadeMap fade_scale frame

/-- The all-black fully-opaque frame of the same shape: every pixel is
(0,0,0,255); a trailing part shorter than one pixel is untouched. -/
def zeroOpaque : List ℕ → List ℕ
  | _ :: _ :: _ :: _ :: rest => 0 :: 0 :: 0 :: 255 :: zeroOpaque rest
  | other => other

/-- A newly spawned particle: Particle::new at the position drawn from
the injected random source (src/main.rs lines 252-256); rng is the
abstracted sequential generator, indexed by how many positions have been
drawn, each position being the pair of gen_range(0.0..width_f) and
gen_range(0.0..height_f) results. -/
def freshAt (rng : ℕ → ℚ × ℚ) (k : ℕ) : Particle := Particle.new ⟨(rng k).1, (rng k).2⟩

/-- Number of dead slots of a population. -/
def deadCount (ps : List Particle) : ℕ := ps.countP (fun p => !p.alive)

/-- The first loop of spawn_particles (src/main.rs lines 250-260): scan
the population in order while spawned < count, replacing each dead slot
by a fresh particle; returns the new population, the remaining number to
spawn, and the next random index. -/
def reuseScan (rng : ℕ → ℚ × ℚ) : ℕ → ℕ → List Particle → List Particle × ℕ × ℕ
  | c, need, [] => ([], need, c)
  | c, need, p :: rest =>
    if need = 0 then (p :: rest, 0, c)
    else if p.alive then
      let r := reuseScan rng c need rest
      (p :: r.1, r.2)
    else
      let r := reuseScan rng (c + 1) (need - 1) rest
      (freshAt rng c :: r.1, r.2)

/-- The second loop of spawn_particles (src/main.rs lines 262-269):
append the remaining fresh particles. -/
def appendNew (rng : ℕ → ℚ × ℚ) : ℕ → ℕ → List Particle
  | _, 0 => []
  | c, n + 1 => freshAt rng c :: appendNew rng (c + 1) n

/-- spawn_particles (src/main.rs lines 240-270): early return when the
spawn count is zero, otherwise reuse dead slots in population order and
append the rest; also returns the next random index. -/
def spawn_particles (rng : ℕ → ℚ × ℚ) (c : ℕ) (count : ℕ) (ps : List Particle) :
    List Particle × ℕ :=
  if count = 0 then (ps, c)
  else
    let r := reuseScan rng c count ps
    (r.1 ++ appendNew rng r.2.2 r.2.1, r.2.2 + r.2.1)

/-- The loop body of draw_segment_additive (src/main.rs lines 457-463):
if the stepped point is inside the buffer bounds, saturating-add the
color channels at its four bytes and force alpha to 255; otherwise leave
the frame untouched. -/
def plotPixel (w h : ℕ) (rgb : ℕ × ℕ × ℕ) (x y : ℤ) (frame : List ℕ) : List ℕ :=
  if 0 ≤ x ∧ 0 ≤ y ∧ x < (w : ℤ) ∧ y < (h : ℤ) then
    let idx := (y.toNat * w + x.toNat) * 4
    let f0 := frame.set idx (satAdd8 (frame.getD idx 0) rgb.1)
    let f1 := f0.set (idx + 1) (satAdd8 (f0.getD (idx + 1) 0) rgb.2.1)
    let f2 := f1.set (idx + 2) (satAdd8 (f1.getD (idx + 2) 0) rgb.2.2)
    f2.set (idx + 3) 255
  else frame

/-- The Bresenham stepping loop of draw_segment_additive (src/main.rs
lines 456-476) recording the visited points, with explicit fuel: none
means the fuel ran out before the endpoint was reached. -/
def bresGo (X Y dx dy sx sy : ℤ) : ℕ → ℤ → ℤ → ℤ → Option (List (ℤ × ℤ))
  | 0, _, _, _ => none
  | fuel + 1, x, y, err =>
    if x = X ∧ y = Y then some [(x, y)]
    else
      let e2 := 2 * err
      let xs := if dy ≤ e2 then x + sx else x
      let errx := if dy ≤ e2 then err + dy else err
      let ys := if e2 ≤ dx then y + sy else y
      let erry := if e2 ≤ dx then errx + dx else errx
      (bresGo X Y dx dy sx sy fuel xs ys erry).map (fun pts => (x, y) :: pts)

/-- The same Bresenham loop threading the frame buffer through plotPixel
(src/main.rs lines 456-476); when fuel runs out the loop stops. -/
def drawGo (w h : ℕ) (rgb : ℕ × ℕ × ℕ) (X Y dx dy sx sy : ℤ) :
    ℕ → ℤ → ℤ → ℤ → List ℕ → List ℕ
  | 0, _, _, _, frame => frame
  | fuel + 1, x, y, err, frame =>
    let frame1 := plotPixel w h rgb x y frame
    if x = X ∧ y = Y then frame1
    else
      let e2 := 2 * err
      let xs := if dy ≤ e2 then x + sx else x
      let errx := if dy ≤ e2 then err + dy else err
      let ys := if e2 ≤ dx then y + sy else y
      let erry := if e2 ≤ dx then errx + dx else errx
      drawGo w h rgb X Y dx dy sx sy fuel xs ys erry frame1

/-- Fuel that always suffices for the Bresenham loop: one more than the
taxicab distance between the integer endpoints. -/
def bresFuel (x0 y0 X Y : ℤ) : ℕ := (X - x0).natAbs + (Y - y0).natAbs + 1

/-- draw_segment_additive (src/main.rs lines 435-477): truncate the two
endpoints to i32, set up the Bresenham state and run the loop over the
frame. -/
def draw_segment_additive (frame : List ℕ) (w h : ℕ) (p0 p1 : Vec2)
    (rgb : ℕ × ℕ × ℕ) : List ℕ :=
  let x0 := castI32 p0.x
  let y0 := castI32 p0.y
  let x1 := castI32 p1.x
  let y1 := castI32 p1.y
  let dx := |x1 - x0|
  let sx : ℤ := if x0 < x1 then 1 else -1
  let dy := -|y1 - y0|
  let sy : ℤ := if y0 < y1 then 1 else -1
  let err := dx + dy
  drawGo w h rgb x1 y1 dx dy sx sy (bresFuel x0 y0 x1 y1) x0 y0 err frame

/-- The pixels visited by draw_segment_additive, in visit order. -/
def bres_points (p0 p1 : Vec2) : Option (List (ℤ × ℤ)) :=
  let x0 := castI32 p0.x
  let y0 := castI32 p0.y
  let x1 := castI32 p1.x
  let y1 := castI32 p1.y
  let dx := |x1 - x0|
  let sx : ℤ := if x0 < x1 then 1 else -1
  let dy := -|y1 - y0|
  let sy : ℤ := if y0 < y1 then 1 else -1
  let err := dx + dy
  bresGo x1 y1 dx dy sx sy (bresFuel x0 y0 x1 y1) x0 y0 err

/-- The per-frame stepping context of step_particles: dirAt abstracts
noise_dir at the current Perlin state, scale and depth; colorAt abstracts
the ColorMode match (src/main.rs lines 290-326), fed the pre-step
position and the post-step particle; the rest are the fields of App and
Params that step_particles reads. -/
structure StepCtx where
  dirAt : Vec2 → Vec2
  colorAt : Vec2 → Particle → ℕ × ℕ × ℕ
  force : ℚ
  friction : ℚ
  width : ℕ
  height : ℕ
  steps_per_frame : ℕ

/-- The boundary test of step_particles (src/main.rs lines 341-345) with
its fixed margin of 10. -/
def outsideMargin (w h : ℕ) (pos : Vec2) : Bool :=
  decide (pos.x < -10 ∨ (w : ℚ) + 10 < pos.x ∨ pos.y < -10 ∨ (h : ℚ) + 10 < pos.y)

/-- The inner sub-step loop of step_particles for a single particle
(src/main.rs lines 281-349): integrate, compute the color, draw the
segment from the pre-step to the post-step position, then mark the
particle dead and break as soon as the post-step position leaves the
margin-expanded canvas. -/
def stepLoop (ctx : StepCtx) : ℕ → Particle → List ℕ → Particle × List ℕ
  | 0, p, frame => (p, frame)
  | n + 1, p, frame =>
    let prev := p.pos
    let p1 := subStep ctx.dirAt ctx.force ctx.friction p
    let color := ctx.colorAt prev p1
    let frame1 := draw_segment_additive frame ctx.width ctx.height prev p1.pos color
    if outsideMargin ctx.width ctx.height p1.pos then ({ p1 with alive := false }, frame1)
    else stepLoop ctx n p1 frame1

/-- step_particles (src/main.rs lines 272-351): every particle of the
population is visited in order; dead particles are skipped untouched,
alive ones run the sub-step loop over the shared frame. -/
def step_particles (ctx : StepCtx) : List Particle → List ℕ → List Particle × List ℕ
  | [], frame => ([], frame)
  | p :: rest, frame =>
    if p.alive then
      let r1 := stepLoop ctx ctx.steps_per_frame p frame
      let r2 := step_particles ctx rest r1.2
      (r1.1 :: r2.1, r2.2)
    else
      let r2 := step_particles ctx rest frame
      (p :: r2.1, r2.2)

/-- The effect of one frame of step_particles on a single particle
(the frame buffer does not influence particle state). -/
def particleStep (ctx : StepCtx) (p : Particle) : Particle :=
  if p.alive then (stepLoop ctx ctx.steps_per_frame p []).1 else p

/-- A concrete stepping context used to witness the lifecycle claims: a
constant flow of magnitude 20 to the right, a constant color, unit force
and friction, a 5 by 5 canvas and two sub-steps per frame. -/
def demoCtx : StepCtx :=
  ⟨fun _ => ⟨20, 0⟩, fun _ _ => (1, 1, 1), 1, 1, 5, 5, 2⟩

/-- A concrete dead particle slot. -/
def demoDead : Particle := ⟨⟨0, 0⟩, ⟨0, 0⟩, 3, false⟩

/-- A color triple has some channel equal to zero. -/
def hasZeroChannel (c : ℕ × ℕ × ℕ) : Prop := c.1 = 0 ∨ c.2.1 = 0 ∨ c.2.2 = 0

/-- How many channels of a color triple are zero. -/
def zeroChannels (c : ℕ × ℕ × ℕ) : ℕ :=
  (if c.1 = 0 then 1 else 0) + (if c.2.1 = 0 then 1 else 0) + (if c.2.2 = 0 then 1 else 0)

/-! ## Theorems -/

/-- Claim C1: one integration sub-step updates an alive particle in this
exact order: the flow direction sampled at the current position is added to
velocity scaled by force, then velocity is multiplied by friction, then
position is incremented by the new velocity, then age is incremented with
saturation so it never wraps past the u32 maximum. -/
theorem C1_substep_order (dirAt : Vec2 → Vec2) (force friction : ℚ) (p : Particle) :
    (subStep dirAt force friction p).vel
        = Vec2.scale friction (p.vel + Vec2.scale force (dirAt p.pos)) ∧
    (subStep dirAt force friction p).pos
        = p.pos + Vec2.scale friction (p.vel + Vec2.scale force (dirAt p.pos)) ∧
    (subStep dirAt force friction p).age = min (p.age + 1) U32_MAX ∧
    (subStep dirAt force friction p).age ≤ U32_MAX := by
  refine ⟨rfl, rfl, rfl, ?_⟩
  exact min_le_right _ _

/-- Claim C6: starting from the documented initial values, any sequence of
key commands leaves every tunable parameter inside its documented range:
scale in [0.0005, 0.05], z_step in [0.0001, 0.05], force in [0.05, 5.0],
friction in [0.90, 0.9995], fade in [0.0, 0.2]. -/
theorem C6_param_clamps (height : ℕ) (ks : List Key) :
    paramsInRange (ks.foldl (fun p k => handleKey k p) (initialParams height)) := by
  have hinit : paramsInRange (initialParams height) := by
    unfold paramsInRange initialParams
    norm_num
  have hstep : ∀ (p : Params) (k : Key), paramsInRange p → paramsInRange (handleKey k p) := by
    intro p k hp
    obtain ⟨h1, h2, h3, h4, h5, h6, h7, h8, h9, h10⟩ := hp
    cases k with
    | space => exact ⟨h1, h2, h3, h4, h5, h6, h7, h8, h9, h10⟩
    | s => exact ⟨h1, h2, h3, h4, h5, h6, h7, h8, h9, h10⟩
    | r => exact ⟨h1, h2, h3, h4, h5, h6, h7, h8, h9, h10⟩
    | c => exact ⟨h1, h2, h3, h4, h5, h6, h7, h8, h9, h10⟩
    | other => exact ⟨h1, h2, h3, h4, h5, h6, h7, h8, h9, h10⟩
    | lbracket =>
        refine ⟨le_max_right _ _, max_le (by nlinarith) (by norm_num),
          h3, h4, h5, h6, h7, h8, h9, h10⟩
    | rbracket =>
        refine ⟨le_min (by nlinarith) (by norm_num), min_le_right _ _,
          h3, h4, h5, h6, h7, h8, h9, h10⟩
    | comma =>
        refine ⟨h1, h2, le_max_right _ _, max_le (by nlinarith) (by norm_num),
          h5, h6, h7, h8, h9, h10⟩
    | period =>
        refine ⟨h1, h2, le_min (by nlinarith) (by norm_num), min_le_right _ _,
          h5, h6, h7, h8, h9, h10⟩
    | slash =>
        refine ⟨h1, h2, h3, h4, le_max_right _ _, max_le (by nlinarith) (by norm_num),
          h7, h8, h9, h10⟩
    | equals =>
        refine ⟨h1, h2, h3, h4, le_min (by nlinarith) (by norm_num), min_le_right _ _,
          h7, h8, h9, h10⟩
    | key9 =>
        refine ⟨h1, h2, h3, h4, h5, h6, le_max_right _ _, max_le (by linarith) (by norm_num),
          h9, h10⟩
    | key0 =>
        refine ⟨h1, h2, h3, h4, h5, h6, le_min (by linarith) (by norm_num), min_le_right _ _,
          h9, h10⟩
    | f =>
        refine ⟨h1, h2, h3, h4, h5, h6, h7, h8, le_min (by linarith) (by norm_num),
          min_le_right _ _⟩
    | g =>
        refine ⟨h1, h2, h3, h4, h5, h6, h7, h8, le_max_right _ _,
          max_le (by linarith) (by norm_num)⟩
  have hfold : ∀ (l : List Key) (p : Params), paramsInRange p →
      paramsInRange (l.foldl (fun p k => handleKey k p) p) := by
    intro l
    induction l with
    | nil => intro p hp; exact hp
    | cons k ks ih =>
        intro p hp
        exact ih _ (hstep p k hp)
  exact hfold ks _ hinit

/-- Counterexample to claim C7: at buffer length 0 with width 1 and
height 1 (a dimension mismatch, 0 is not 1*1*4), save_png panics through
the expect on ImageBuffer::from_raw, so the process does not keep
running; the claim that a dimension mismatch is reported and non-fatal is
false on the code. -/
theorem C7_counterexample :
    (0 : ℕ) ≠ 1 * 1 * 4 ∧
    savePng 0 1 1 true = SaveOutcome.panicked ∧
    snapshotKeepsRunning 0 1 1 true = false := by
  decide

/-- Claim C7 amended: an underlying write failure is non-fatal (the error
is returned to handle_key, which discards the Result, and the simulation
loop keeps running), but a dimension mismatch between the buffer length
and width*height*4 is fatal: it panics via the expect on
ImageBuffer::from_raw rather than being reported. -/
theorem C7_snapshot_failures (bufLen w h : ℕ) (writeOk : Bool) :
    (bufLen = w * h * 4 → snapshotKeepsRunning bufLen w h writeOk = true) ∧
    (bufLen = w * h * 4 → writeOk = false → savePng bufLen w h writeOk = SaveOutcome.err) ∧
    (bufLen ≠ w * h * 4 → savePng bufLen w h writeOk = SaveOutcome.panicked) := by
  refine ⟨?_, ?_, ?_⟩
  · intro hlen
    cases writeOk <;> simp [snapshotKeepsRunning, savePng, hlen]
  · intro hlen hw
    subst hw
    simp [savePng, hlen]
  · intro hlen
    simp [savePng, hlen]

/-- Witness for C7_snapshot_failures at buffer length 4, width 1,
height 1: a failed write is survived, and shrinking the buffer to
length 0 panics. -/
theorem C7_snapshot_failures_witness :
    snapshotKeepsRunning 4 1 1 false = true ∧
    savePng 4 1 1 false = SaveOutcome.err ∧
    savePng 0 1 1 false = SaveOutcome.panicked := by
  refine ⟨(C7_snapshot_failures 4 1 1 false).1 (by decide),
    (C7_snapshot_failures 4 1 1 false).2.1 (by decide) rfl,
    (C7_snapshot_failures 0 1 1 false).2.2 (by decide)⟩

/-- Claim C9: noise sampling is deterministic in the seed: two Perlin
instances built from equal seeds give identical sample directions at every
identical (position, scale, depth), and the returned direction is the
cos/sin pair of the noise scalar multiplied by tau, for any choice of the
abstracted library primitives (noise evaluator, cos, sin). -/
theorem C9_noise_determinism (perlinGet : ℕ → ℚ → ℚ → ℚ → ℚ) (cosF sinF : ℚ → ℚ)
    (tau : ℚ) (s1 s2 : ℕ) (scale z : ℚ) (p : Vec2) (hseed : s1 = s2) :
    noise_dir perlinGet cosF sinF tau (perlinNew s1) scale z p
        = noise_dir perlinGet cosF sinF tau (perlinNew s2) scale z p ∧
    noise_dir perlinGet cosF sinF tau (perlinNew s1) scale z p
        = ⟨cosF (perlinGet s1 (p.x * scale) (p.y * scale) z * tau),
           sinF (perlinGet s1 (p.x * scale) (p.y * scale) z * tau)⟩ := by
  subst hseed
  exact ⟨rfl, rfl⟩

/-- Helper for claim C8: on the sector k/6 ≤ h < (k+1)/6 of a hue in
[0,1), the floor of 6h is k. -/
theorem floor_six_hue (h : ℚ) (k : ℕ) (hlo : (k : ℚ) / 6 ≤ h) (hhi : h < ((k : ℚ) + 1) / 6) :
    ⌊h * 6⌋ = (k : ℤ) := by
  rw [Int.floor_eq_iff]
  push_cast
  constructor <;> linarith

/-- Counterexample to claim C8: at hue 0 (which is in [0,1)) the result
of hsv_to_rgb with full saturation and value is pure red (255,0,0), which
has two channels equal to 0, not exactly one. -/
theorem C8_counterexample :
    hsv_to_rgb 0 1 1 = (255, 0, 0) ∧
    zeroChannels (hsv_to_rgb 0 1 1) = 2 ∧
    (0 : ℚ) ≤ 0 ∧ (0 : ℚ) < 1 := by
  have hv : hsv_to_rgb 0 1 1 = (255, 0, 0) := by
    norm_num [hsv_to_rgb, trunc0, byteC]
    all_goals decide
  refine ⟨hv, ?_, le_refl 0, by norm_num⟩
  rw [hv]
  decide

set_option maxHeartbeats 1600000 in
/-- Claim C8 amended: for every hue in [0,1) at saturation 1 and value 1,
hsv_to_rgb follows the expected sector pattern (one channel at full
value, one at zero, the third ramping with the in-sector offset), and in
particular at least one channel is 0; hue 0 gives pure red, where two
channels are 0, so exactly one is the corrected count of at least one. -/
theorem C8_hue_sector (h : ℚ) (h0 : 0 ≤ h) (hlt : h < 1) :
    hsv_to_rgb h 1 1 = specSectorRGB h ∧ hasZeroChannel (hsv_to_rgb h 1 1) := by
  have htr : trunc0 h = 0 := by
    unfold trunc0
    rw [if_pos h0]
    exact Int.floor_eq_zero_iff.mpr ⟨h0, hlt⟩
  by_cases hA : h < 1 / 6
  · have hn : ⌊h * 6⌋ = 0 := floor_six_hue h 0 (by push_cast; linarith) (by push_cast; linarith)
    have heq : hsv_to_rgb h 1 1 = specSectorRGB h := by
      simp only [hsv_to_rgb, specSectorRGB, htr, Int.cast_zero, sub_zero]
      rw [if_neg (not_lt.mpr h0), hn, if_pos hA]
      norm_num [byteC, trunc0]
      all_goals decide
    refine ⟨heq, ?_⟩
    rw [heq]
    unfold hasZeroChannel specSectorRGB
    rw [if_pos hA]
    exact Or.inr (Or.inr rfl)
  · by_cases hB : h < 2 / 6
    · have hn : ⌊h * 6⌋ = 1 := floor_six_hue h 1 (by push_cast; linarith) (by push_cast; linarith)
      have heq : hsv_to_rgb h 1 1 = specSectorRGB h := by
        simp only [hsv_to_rgb, specSectorRGB, htr, Int.cast_zero, sub_zero]
        rw [if_neg (not_lt.mpr h0), hn, if_neg hA, if_pos hB]
        norm_num [byteC, trunc0]
        all_goals decide
      refine ⟨heq, ?_⟩
      rw [heq]
      unfold hasZeroChannel specSectorRGB
      rw [if_neg hA, if_pos hB]
      exact Or.inr (Or.inr rfl)
    · by_cases hC : h < 3 / 6
      · have hn : ⌊h * 6⌋ = 2 := floor_six_hue h 2 (by push_cast; linarith) (by push_cast; linarith)
        have heq : hsv_to_rgb h 1 1 = specSectorRGB h := by
          simp only [hsv_to_rgb, specSectorRGB, htr, Int.cast_zero, sub_zero]
          rw [if_neg (not_lt.mpr h0), hn, if_neg hA, if_neg hB, if_pos hC]
          norm_num [byteC, trunc0]
          all_goals decide
        refine ⟨heq, ?_⟩
        rw [heq]
        unfold hasZeroChannel specSectorRGB
        rw [if_neg hA, if_neg hB, if_pos hC]
        exact Or.inl rfl
      · by_cases hD : h < 4 / 6
        · have hn : ⌊h * 6⌋ = 3 := floor_six_hue h 3 (by push_cast; linarith) (by push_cast; linarith)
          have heq : hsv_to_rgb h 1 1 = specSectorRGB h := by
            simp only [hsv_to_rgb, specSectorRGB, htr, Int.cast_zero, sub_zero]
            rw [if_neg (not_lt.mpr h0), hn, if_neg hA, if_neg hB, if_neg hC, if_pos hD]
            norm_num [byteC, trunc0]
            all_goals decide
          refine ⟨heq, ?_⟩
          rw [heq]
          unfold hasZeroChannel specSectorRGB
          rw [if_neg hA, if_neg hB, if_neg hC, if_pos hD]
          exact Or.inl rfl
        · by_cases hE : h < 5 / 6
          · have hn : ⌊h * 6⌋ = 4 := floor_six_hue h 4 (by push_cast; linarith) (by push_cast; linarith)
            have heq : hsv_to_rgb h 1 1 = specSectorRGB h := by
              simp only [hsv_to_rgb, specSectorRGB, htr, Int.cast_zero, sub_zero]
              rw [if_neg (not_lt.mpr h0), hn, if_neg hA, if_neg hB, if_neg hC, if_neg hD, if_pos hE]
              norm_num [byteC, trunc0]
              all_goals decide
            refine ⟨heq, ?_⟩
            rw [heq]
            unfold hasZeroChannel specSectorRGB
            rw [if_neg hA, if_neg hB, if_neg hC, if_neg hD, if_pos hE]
            exact Or.inr (Or.inl rfl)
          · have hn : ⌊h * 6⌋ = 5 := floor_six_hue h 5 (by push_cast; linarith) (by push_cast; linarith)
            have heq : hsv_to_rgb h 1 1 = specSectorRGB h := by
              simp only [hsv_to_rgb, specSectorRGB, htr, Int.cast_zero, sub_zero]
              rw [if_neg (not_lt.mpr h0), hn, if_neg hA, if_neg hB, if_neg hC, if_neg hD, if_neg hE]
              norm_num [byteC, trunc0]
              all_goals decide
            refine ⟨heq, ?_⟩
            rw [heq]
            unfold hasZeroChannel specSectorRGB
            rw [if_neg hA, if_neg hB, if_neg hC, if_neg hD, if_neg hE]
            exact Or.inr (Or.inl rfl)

/-- Witness for C8_hue_sector at hue one half: the sector pattern and a
zero channel hold there. -/
theorem C8_hue_sector_witness :
    hsv_to_rgb (1 / 2) 1 1 = specSectorRGB (1 / 2) ∧
    hasZeroChannel (hsv_to_rgb (1 / 2) 1 1) :=
  C8_hue_sector (1 / 2) (by norm_num) (by norm_num)

/-- Witness for C9_noise_determinism: concrete library primitives and the
seed 7 on both sides. -/
theorem C9_noise_determinism_witness :
    noise_dir (fun s _ _ _ => (s : ℚ)) id id 1 (perlinNew 7) 2 3 ⟨4, 5⟩
        = noise_dir (fun s _ _ _ => (s : ℚ)) id id 1 (perlinNew 7) 2 3 ⟨4, 5⟩ ∧
    noise_dir (fun s _ _ _ => (s : ℚ)) id id 1 (perlinNew 7) 2 3 ⟨4, 5⟩
        = ⟨id ((7 : ℚ) * 1), id ((7 : ℚ) * 1)⟩ :=
  C9_noise_determinism (fun s _ _ _ => (s : ℚ)) id id 1 7 7 2 3 ⟨4, 5⟩ rfl

/-- With a positive fade, apply_fade takes the scaling path. -/
theorem apply_fade_of_pos (fade : ℚ) (hf : 0 < fade) (l : List ℕ) :
    apply_fade fade l = fadeMap (1 - fade) l := by
  unfold apply_fade
  rw [if_neg (by linarith)]

/-- A positive byte strictly shrinks under fadeByte when the scale is
below one. -/
theorem fadeByte_lt (fs : ℚ) (hfs : fs < 1) (v : ℕ) (hv : 1 ≤ v) : fadeByte fs v < v := by
  unfold fadeByte castU8 trunc0
  have hv1 : (1 : ℚ) ≤ (v : ℚ) := by exact_mod_cast hv
  by_cases hq : 0 ≤ (v : ℚ) * fs
  · rw [if_pos hq]
    have hlt : ⌊(v : ℚ) * fs⌋ < (v : ℤ) := by
      rw [Int.floor_lt]
      push_cast
      nlinarith
    have h0 : 0 ≤ ⌊(v : ℚ) * fs⌋ := Int.floor_nonneg.mpr hq
    exact lt_of_le_of_lt (min_le_right _ _) (by omega)
  · rw [if_neg hq]
    have h1 : 0 ≤ ⌊-((v : ℚ) * fs)⌋ := Int.floor_nonneg.mpr (by linarith [not_le.mp hq])
    exact lt_of_le_of_lt (min_le_right _ _) (by omega)

/-- fadeByte fixes zero. -/
theorem fadeByte_zero (fs : ℚ) : fadeByte fs 0 = 0 := by
  unfold fadeByte castU8 trunc0
  norm_num

/-- Iterating fadeByte at least as often as the byte value reaches zero. -/
theorem fadeByte_iter_zero (fade : ℚ) (hf : 0 < fade) :
    ∀ (k v : ℕ), v ≤ k → (fadeByte (1 - fade))^[k] v = 0 := by
  intro k
  induction k with
  | zero =>
      intro v hv
      have hv0 : v = 0 := Nat.le_zero.mp hv
      subst hv0
      rfl
  | succ k ih =>
      intro v hv
      rw [Function.iterate_succ_apply]
      apply ih
      rcases Nat.eq_zero_or_pos v with h0 | h1
      · subst h0
        rw [fadeByte_zero]
        omega
      · have := fadeByte_lt (1 - fade) (by linarith) v h1
        omega

/-- Iterated fade acts on a leading pixel chunk channelwise, forcing
alpha to 255 as soon as one pass has run. -/
theorem fade_iter_chunk (fade : ℚ) (hf : 0 < fade) (n : ℕ) :
    ∀ (r g b a : ℕ) (rest : List ℕ),
      (apply_fade fade)^[n] (r :: g :: b :: a :: rest)
        = (fadeByte (1 - fade))^[n] r :: (fadeByte (1 - fade))^[n] g ::
          (fadeByte (1 - fade))^[n] b :: (if n = 0 then a else 255) ::
          (apply_fade fade)^[n] rest := by
  induction n with
  | zero =>
      intro r g b a rest
      simp
  | succ n ih =>
      intro r g b a rest
      rw [Function.iterate_succ_apply, apply_fade_of_pos fade hf]
      have hstep : fadeMap (1 - fade) (r :: g :: b :: a :: rest)
          = fadeByte (1 - fade) r :: fadeByte (1 - fade) g :: fadeByte (1 - fade) b :: 255
            :: fadeMap (1 - fade) rest := rfl
      rw [hstep, ih]
      rw [← apply_fade_of_pos fade hf rest]
      simp only [← Function.iterate_succ_apply]
      simp

/-- fadeMap leaves a list that is not a full pixel chunk unchanged. -/
theorem fadeMap_skip (fs : ℚ) (other : List ℕ)
    (h : ∀ (r g b a : ℕ) (rest : List ℕ), other = r :: g :: b :: a :: rest → False) :
    fadeMap fs other = other := by
  rcases other with _ | ⟨x1, _ | ⟨x2, _ | ⟨x3, _ | ⟨x4, rest⟩⟩⟩⟩
  · rfl
  · rfl
  · rfl
  · rfl
  · exact (h x1 x2 x3 x4 rest rfl).elim

/-- zeroOpaque leaves a list that is not a full pixel chunk unchanged. -/
theorem zeroOpaque_skip (other : List ℕ)
    (h : ∀ (r g b a : ℕ) (rest : List ℕ), other = r :: g :: b :: a :: rest → False) :
    zeroOpaque other = other := by
  rcases other with _ | ⟨x1, _ | ⟨x2, _ | ⟨x3, _ | ⟨x4, rest⟩⟩⟩⟩
  · rfl
  · rfl
  · rfl
  · rfl
  · exact (h x1 x2 x3 x4 rest rfl).elim

/-- 255 fade passes drive every byte buffer to black with opaque alpha. -/
theorem fade_converges (fade : ℚ) (hf : 0 < fade) :
    ∀ (frame : List ℕ), (∀ x ∈ frame, x ≤ 255) →
      (apply_fade fade)^[255] frame = zeroOpaque frame := by
  intro frame
  induction frame using zeroOpaque.induct with
  | case1 r g b a rest ih =>
      intro hb
      rw [fade_iter_chunk fade hf]
      rw [fadeByte_iter_zero fade hf 255 r (hb r (by simp)),
          fadeByte_iter_zero fade hf 255 g (hb g (by simp)),
          fadeByte_iter_zero fade hf 255 b (hb b (by simp))]
      rw [ih (fun x hx => hb x (by simp [hx]))]
      simp [zeroOpaque]
  | case2 other h =>
      intro _
      have hfix : apply_fade fade other = other := by
        rw [apply_fade_of_pos fade hf]
        exact fadeMap_skip (1 - fade) other h
      rw [Function.iterate_fixed hfix]
      exact (zeroOpaque_skip other h).symm

/-- Pointwise description of one fadeMap pass on an aligned frame. -/
theorem fadeMap_get (fs : ℚ) :
    ∀ (n : ℕ) (frame : List ℕ), frame.length = 4 * n → ∀ i, i < frame.length →
      (fadeMap fs frame).get? i
        = some (if i % 4 = 3 then 255 else fadeByte fs (frame.getD i 0)) := by
  intro n
  induction n with
  | zero =>
      intro frame hlen i hi
      omega
  | succ n ih =>
      intro frame hlen i hi
      rcases frame with _ | ⟨r, _ | ⟨g, _ | ⟨b, _ | ⟨a, rest⟩⟩⟩⟩
      · simp only [List.length_nil] at hlen
        omega
      · simp only [List.length_cons, List.length_nil] at hlen
        omega
      · simp only [List.length_cons, List.length_nil] at hlen
        omega
      · simp only [List.length_cons, List.length_nil] at hlen
        omega
      · have hrest : rest.length = 4 * n := by
          simp only [List.length_cons] at hlen
          omega
        have hfm : fadeMap fs (r :: g :: b :: a :: rest)
            = fadeByte fs r :: fadeByte fs g :: fadeByte fs b :: 255 :: fadeMap fs rest := rfl
        rw [hfm]
        rcases i with _ | ⟨_ | ⟨_ | ⟨_ | j⟩⟩⟩
        · simp [List.getD]
        · simp [List.getD]
        · simp [List.getD]
        · simp
        · have hj : j < rest.length := by
            simp only [List.length_cons] at hi
            omega
          simp only [List.get?_cons_succ]
          rw [ih rest hrest j hj]
          have hmod : (j + 4) % 4 = j % 4 := Nat.add_mod_right j 4
          simp [hmod, List.getD_cons_succ]

/-- Claim C5: apply_fade with a non-positive fade coefficient leaves the
buffer entirely unchanged; with a positive fade coefficient it multiplies
every R/G/B channel of every pixel by (1 - fade), truncating to integer,
and forces alpha to 255; and 255 repeated applications drive any byte
buffer to all-zero RGB with alpha fixed at 255. -/
theorem C5_fade (fade : ℚ) (frame : List ℕ) :
    (fade ≤ 0 → apply_fade fade frame = frame) ∧
    (0 < fade → 4 ∣ frame.length → ∀ i, i < frame.length →
      (apply_fade fade frame).get? i
        = some (if i % 4 = 3 then 255 else castU8 ((frame.getD i 0 : ℚ) * (1 - fade)))) ∧
    (0 < fade → (∀ x ∈ frame, x ≤ 255) →
      (apply_fade fade)^[255] frame = zeroOpaque frame) := by
  refine ⟨?_, ?_, ?_⟩
  · intro hle
    unfold apply_fade
    rw [if_pos (by linarith)]
  · intro hf hdvd i hi
    obtain ⟨n, hn⟩ := hdvd
    rw [apply_fade_of_pos fade hf]
    have := fadeMap_get (1 - fade) n frame hn i hi
    simpa [fadeByte] using this
  · intro hf hb
    exact fade_converges fade hf frame hb

/-- Witness for C5_fade: zero fade fixes a concrete buffer, and with fade
one tenth the pointwise description and 255-step convergence hold on it. -/
theorem C5_fade_witness :
    apply_fade 0 [10, 20, 30, 40] = [10, 20, 30, 40] ∧
    (apply_fade (1 / 10) [10, 20, 30, 40]).get? 0
      = some (if 0 % 4 = 3 then 255 else castU8 ((([10, 20, 30, 40].getD 0 0 : ℕ) : ℚ) * (1 - 1 / 10))) ∧
    (apply_fade (1 / 10))^[255] [10, 20, 30, 40] = zeroOpaque [10, 20, 30, 40] :=
  ⟨(C5_fade 0 [10, 20, 30, 40]).1 le_rfl,
   (C5_fade (1 / 10) [10, 20, 30, 40]).2.1 (by norm_num) (by decide) 0 (by decide),
   (C5_fade (1 / 10) [10, 20, 30, 40]).2.2 (by norm_num) (by decide)⟩

/-- Structure of the dead-slot reuse scan: it spawns exactly
min(need, deadCount) fresh particles, consuming that many random draws,
keeps every alive slot, replaces exactly those dead slots whose rank
among the dead slots (in population order) is below the remaining need,
and keeps the later dead slots. -/
theorem reuseScan_spec (rng : ℕ → ℚ × ℚ) :
    ∀ (ps : List Particle) (c need : ℕ),
      (reuseScan rng c need ps).2.1 = need - min need (deadCount ps) ∧
      (reuseScan rng c need ps).2.2 = c + min need (deadCount ps) ∧
      (reuseScan rng c need ps).1.length = ps.length ∧
      (∀ i p, ps.get? i = some p → p.alive = true →
        (reuseScan rng c need ps).1.get? i = some p) ∧
      (∀ i p, ps.get? i = some p → p.alive = false →
        ((ps.take i).countP (fun q => !q.alive) < need →
          (reuseScan rng c need ps).1.get? i
            = some (freshAt rng (c + (ps.take i).countP (fun q => !q.alive)))) ∧
        (¬ (ps.take i).countP (fun q => !q.alive) < need →
          (reuseScan rng c need ps).1.get? i = some p)) := by
  intro ps
  induction ps with
  | nil =>
      intro c need
      refine ⟨by simp [reuseScan, deadCount], by simp [reuseScan, deadCount],
        by simp [reuseScan], ?_, ?_⟩
      · intro i p hget
        simp at hget
      · intro i p hget
        simp at hget
  | cons p rest ih =>
      intro c need
      by_cases hneed : need = 0
      · subst hneed
        simp only [reuseScan, if_pos rfl]
        refine ⟨by simp, by simp, rfl, ?_, ?_⟩
        · intro i q hget _
          exact hget
        · intro i q hget _
          exact ⟨fun hc => absurd hc (by omega), fun _ => hget⟩
      · by_cases halive : p.alive
        · have hdc : deadCount (p :: rest) = deadCount rest := by
            unfold deadCount
            rw [List.countP_cons_of_neg]
            simp [halive]
          obtain ⟨ih1, ih2, ih3, ih4, ih5⟩ := ih c need
          simp only [reuseScan, if_neg hneed, if_pos halive]
          refine ⟨by simpa [hdc] using ih1, by simpa [hdc] using ih2, by simpa using ih3, ?_, ?_⟩
          · intro i q hget hal
            rcases i with _ | j
            · simpa using hget
            · simp only [List.get?_cons_succ] at hget ⊢
              exact ih4 j q hget hal
          · intro i q hget hal
            rcases i with _ | j
            · simp only [List.get?_cons_zero, Option.some.injEq] at hget
              rw [← hget] at hal
              rw [hal] at halive
              exact absurd halive (by simp)
            · simp only [List.get?_cons_succ] at hget ⊢
              have htake : ((p :: rest).take (j + 1)).countP (fun q => !q.alive)
                  = (rest.take j).countP (fun q => !q.alive) := by
                rw [List.take_succ_cons, List.countP_cons_of_neg]
                simp [halive]
              rw [htake]
              exact ih5 j q hget hal
        · have halF : p.alive = false := by
            cases hp : p.alive
            · rfl
            · exact absurd hp halive
          have hdc : deadCount (p :: rest) = deadCount rest + 1 := by
            unfold deadCount
            rw [List.countP_cons_of_pos]
            simp [halF]
          obtain ⟨ih1, ih2, ih3, ih4, ih5⟩ := ih (c + 1) (need - 1)
          simp only [reuseScan, if_neg hneed, if_neg halive]
          refine ⟨?_, ?_, by simpa using ih3, ?_, ?_⟩
          · rw [ih1, hdc]
            omega
          · rw [ih2, hdc]
            omega
          · intro i q hget hal
            rcases i with _ | j
            · simp only [List.get?_cons_zero, Option.some.injEq] at hget
              rw [← hget] at hal
              rw [hal] at halF
              exact absurd halF (by simp)
            · simp only [List.get?_cons_succ] at hget ⊢
              exact ih4 j q hget hal
          · intro i q hget hal
            rcases i with _ | j
            · constructor
              · intro _
                simp
              · intro hc
                exfalso
                apply hc
                have hz : ((p :: rest).take 0).countP (fun q => !q.alive) = 0 := by simp
                omega
            · simp only [List.get?_cons_succ] at hget ⊢
              have htake : ((p :: rest).take (j + 1)).countP (fun q => !q.alive)
                  = (rest.take j).countP (fun q => !q.alive) + 1 := by
                rw [List.take_succ_cons, List.countP_cons_of_pos]
                simp [halF]
              obtain ⟨ihA, ihB⟩ := ih5 j q hget hal
              rw [htake]
              constructor
              · intro hc
                have harg : c + 1 + (rest.take j).countP (fun q => !q.alive)
                    = c + ((rest.take j).countP (fun q => !q.alive) + 1) := by omega
                rw [ihA (Nat.lt_sub_of_add_lt hc), harg]
              · intro hc
                exact ihB (fun hlt => hc (Nat.add_lt_of_lt_sub hlt))

/-- appendNew produces exactly the requested number of particles. -/
theorem appendNew_length (rng : ℕ → ℚ × ℚ) : ∀ (n c : ℕ), (appendNew rng c n).length = n := by
  intro n
  induction n with
  | zero => intro c; rfl
  | succ n ih =>
      intro c
      simp [appendNew, ih]

/-- The r-th appended particle is fresh at random index c + r. -/
theorem appendNew_get (rng : ℕ → ℚ × ℚ) :
    ∀ (n c r : ℕ), r < n → (appendNew rng c n).get? r = some (freshAt rng (c + r)) := by
  intro n
  induction n with
  | zero =>
      intro c r hr
      omega
  | succ n ih =>
      intro c r hr
      rcases r with _ | r
      · simp [appendNew]
      · simp only [appendNew, List.get?_cons_succ]
        have harg : c + 1 + r = c + (r + 1) := by omega
        rw [ih (c + 1) r (by omega), harg]

/-- Claim C4: for count at least one, spawn_particles reuses exactly
min(count, deadCount) dead slots, scanned in population order (a dead
slot is refilled exactly when its rank among the dead slots is below
count), leaves alive slots and later dead slots untouched, then appends
count minus min(count, deadCount) new particles; every newly spawned
particle is Particle::new at the next random position: zero velocity,
zero age, alive, and position inside the canvas bounds whenever the
injected generator respects the gen_range bounds. -/
theorem C4_spawn (rng : ℕ → ℚ × ℚ) (w h : ℕ) (c count : ℕ) (ps : List Particle)
    (hcount : 1 ≤ count)
    (hrng : ∀ k, 0 ≤ (rng k).1 ∧ (rng k).1 < (w : ℚ) ∧ 0 ≤ (rng k).2 ∧ (rng k).2 < (h : ℚ)) :
    ((spawn_particles rng c count ps).1.length
        = ps.length + (count - min count (deadCount ps))) ∧
    (∀ i p, ps.get? i = some p → p.alive = true →
      (spawn_particles rng c count ps).1.get? i = some p) ∧
    (∀ i p, ps.get? i = some p → p.alive = false →
      ((ps.take i).countP (fun q => !q.alive) < count →
        (spawn_particles rng c count ps).1.get? i
          = some (freshAt rng (c + (ps.take i).countP (fun q => !q.alive)))) ∧
      (¬ (ps.take i).countP (fun q => !q.alive) < count →
        (spawn_particles rng c count ps).1.get? i = some p)) ∧
    (∀ r, r < count - min count (deadCount ps) →
      (spawn_particles rng c count ps).1.get? (ps.length + r)
        = some (freshAt rng (c + min count (deadCount ps) + r))) ∧
    (∀ k, (freshAt rng k).vel = Vec2.zero ∧ (freshAt rng k).age = 0 ∧
      (freshAt rng k).alive = true ∧
      0 ≤ (freshAt rng k).pos.x ∧ (freshAt rng k).pos.x < (w : ℚ) ∧
      0 ≤ (freshAt rng k).pos.y ∧ (freshAt rng k).pos.y < (h : ℚ)) := by
  have hne : ¬ count = 0 := by omega
  obtain ⟨h1, h2, h3, h4, h5⟩ := reuseScan_spec rng ps c count
  have hsp : spawn_particles rng c count ps
      = ((reuseScan rng c count ps).1
          ++ appendNew rng (reuseScan rng c count ps).2.2 (reuseScan rng c count ps).2.1,
         (reuseScan rng c count ps).2.2 + (reuseScan rng c count ps).2.1) := by
    unfold spawn_particles
    rw [if_neg hne]
  refine ⟨?_, ?_, ?_, ?_, ?_⟩
  · rw [hsp]
    simp only [List.length_append, h3, appendNew_length, h1]
  · intro i p hget hal
    obtain ⟨hi, _⟩ := List.get?_eq_some.mp hget
    rw [hsp]
    rw [List.get?_append (by rw [h3]; exact hi)]
    exact h4 i p hget hal
  · intro i p hget hal
    obtain ⟨hi, _⟩ := List.get?_eq_some.mp hget
    obtain ⟨hA, hB⟩ := h5 i p hget hal
    constructor
    · intro hc
      rw [hsp]
      rw [List.get?_append (by rw [h3]; exact hi)]
      exact hA hc
    · intro hc
      rw [hsp]
      rw [List.get?_append (by rw [h3]; exact hi)]
      exact hB hc
  · intro r hr
    rw [hsp]
    rw [List.get?_append_right (by rw [h3]; omega)]
    rw [h3]
    have hidx : ps.length + r - ps.length = r := by omega
    rw [hidx]
    rw [appendNew_get rng (reuseScan rng c count ps).2.1 (reuseScan rng c count ps).2.2 r
      (by rw [h1]; omega)]
    rw [h2]
  · intro k
    exact ⟨rfl, rfl, rfl, (hrng k).1, (hrng k).2.1, (hrng k).2.2.1, (hrng k).2.2.2⟩

/-- Witness for C4_spawn: spawning 2 into a population holding one dead
slot refills that slot and appends one particle, giving length 2. -/
theorem C4_spawn_witness :
    (spawn_particles (fun _ => (1 / 2, 1 / 2)) 0 2
        [(⟨⟨0, 0⟩, ⟨0, 0⟩, 5, false⟩ : Particle)]).1.length
      = [(⟨⟨0, 0⟩, ⟨0, 0⟩, 5, false⟩ : Particle)].length
        + (2 - min 2 (deadCount [(⟨⟨0, 0⟩, ⟨0, 0⟩, 5, false⟩ : Particle)])) :=
  (C4_spawn (fun _ => (1 / 2, 1 / 2)) 1 1 0 2 [⟨⟨0, 0⟩, ⟨0, 0⟩, 5, false⟩]
    (by norm_num) (fun k => by norm_num)).1

/-- Appending to the front preserves a known last element. -/
theorem cons_getLast (a z : ℤ × ℤ) (l : List (ℤ × ℤ)) (h : l.getLast? = some z) :
    (a :: l).getLast? = some z := by
  cases l with
  | nil => simp at h
  | cons b t =>
      rw [List.getLast?_cons_cons]
      exact h

/-- Invariant of the Bresenham loop: writing the stepped point as
(X - sx*(D - u), Y - sy*(E - v)) with 0 ≤ u ≤ D and 0 ≤ v ≤ E and the
error term as D - E + v*D - u*E, the loop never overshoots, makes
progress every iteration, and reaches (X, Y) before the fuel runs out. -/
theorem bresGo_total (X Y sx sy D E : ℤ) (hD : 0 ≤ D) (hE : 0 ≤ E)
    (hsx : sx = 1 ∨ sx = -1) (hsy : sy = 1 ∨ sy = -1) :
    ∀ (fuel : ℕ) (u v : ℤ), 0 ≤ u → u ≤ D → 0 ≤ v → v ≤ E →
      (D - u) + (E - v) < (fuel : ℤ) →
      ∃ pts, bresGo X Y D (-E) sx sy fuel (X - sx * (D - u)) (Y - sy * (E - v))
          (D - E + v * D - u * E) = some pts ∧ pts.getLast? = some (X, Y) := by
  intro fuel
  induction fuel with
  | zero =>
      intro u v hu0 huD hv0 hvE hm
      exfalso
      simp at hm
      omega
  | succ fuel ih =>
      intro u v hu0 huD hv0 hvE hm
      by_cases hdone : X - sx * (D - u) = X ∧ Y - sy * (E - v) = Y
      · refine ⟨[(X - sx * (D - u), Y - sy * (E - v))], ?_, ?_⟩
        · simp only [bresGo, if_pos hdone]
        · rw [hdone.1, hdone.2]
          rfl
      · have hne : u ≠ D ∨ v ≠ E := by
          by_contra hcon
          push_neg at hcon
          apply hdone
          constructor
          · rw [hcon.1]
            ring_nf
          · rw [hcon.2]
            ring_nf
        have huv : u < D ∨ v < E := by
          rcases hne with h | h
          · exact Or.inl (lt_of_le_of_ne huD h)
          · exact Or.inr (lt_of_le_of_ne hvE h)
        by_cases hc1 : -E ≤ 2 * (D - E + v * D - u * E)
        · by_cases hc2 : 2 * (D - E + v * D - u * E) ≤ D
          · have huD2 : u < D := by
              rcases lt_or_eq_of_le huD with h | h
              · exact h
              · exfalso
                subst h
                have hvE2 : v < E := by
                  rcases huv with hh | hh
                  · exact absurd rfl (ne_of_lt hh)
                  · exact hh
                have : 2 * (u - E + v * u - u * E) < -E := by
                  nlinarith [mul_nonneg hu0 (show (0 : ℤ) ≤ E - 1 - v by omega)]
                omega
            have hvE2 : v < E := by
              rcases lt_or_eq_of_le hvE with h | h
              · exact h
              · exfalso
                subst h
                have : ¬ 2 * (D - v + v * D - u * v) ≤ D := by
                  push_neg
                  nlinarith [mul_nonneg hv0 (show (0 : ℤ) ≤ D - 1 - u by omega)]
                exact this hc2
            obtain ⟨pts, hpts, hlast⟩ := ih (u + 1) (v + 1) (by omega) (by omega) (by omega)
              (by omega) (by push_cast at hm ⊢; omega)
            refine ⟨(X - sx * (D - u), Y - sy * (E - v)) :: pts, ?_,
              cons_getLast _ _ _ hlast⟩
            simp only [bresGo, if_neg hdone, if_pos hc1, if_pos hc2]
            have hxs : X - sx * (D - u) + sx = X - sx * (D - (u + 1)) := by ring
            have hys : Y - sy * (E - v) + sy = Y - sy * (E - (v + 1)) := by ring
            have herr : D - E + v * D - u * E + -E + D
                = D - E + (v + 1) * D - (u + 1) * E := by ring
            rw [hxs, hys, herr, hpts]
            rfl
          · have huD2 : u < D := by
              rcases lt_or_eq_of_le huD with h | h
              · exact h
              · exfalso
                subst h
                have hvE2 : v < E := by
                  rcases huv with hh | hh
                  · exact absurd rfl (ne_of_lt hh)
                  · exact hh
                have : 2 * (u - E + v * u - u * E) < -E := by
                  nlinarith [mul_nonneg hu0 (show (0 : ℤ) ≤ E - 1 - v by omega)]
                omega
            obtain ⟨pts, hpts, hlast⟩ := ih (u + 1) v (by omega) (by omega) hv0 hvE
              (by push_cast at hm ⊢; omega)
            refine ⟨(X - sx * (D - u), Y - sy * (E - v)) :: pts, ?_,
              cons_getLast _ _ _ hlast⟩
            simp only [bresGo, if_neg hdone, if_pos hc1, if_neg hc2]
            have hxs : X - sx * (D - u) + sx = X - sx * (D - (u + 1)) := by ring
            have herr : D - E + v * D - u * E + -E = D - E + v * D - (u + 1) * E := by ring
            rw [hxs, herr, hpts]
            rfl
        · have hc2 : 2 * (D - E + v * D - u * E) ≤ D := by
            push_neg at hc1
            omega
          have hvE2 : v < E := by
            rcases lt_or_eq_of_le hvE with h | h
            · exact h
            · exfalso
              subst h
              have huD2 : u < D := by
                rcases huv with hh | hh
                · exact hh
                · exact absurd rfl (ne_of_lt hh)
              have : ¬ 2 * (D - v + v * D - u * v) ≤ D := by
                push_neg
                nlinarith [mul_nonneg hv0 (show (0 : ℤ) ≤ D - 1 - u by omega)]
              exact this hc2
          obtain ⟨pts, hpts, hlast⟩ := ih u (v + 1) hu0 huD (by omega) (by omega)
            (by push_cast at hm ⊢; omega)
          refine ⟨(X - sx * (D - u), Y - sy * (E - v)) :: pts, ?_,
            cons_getLast _ _ _ hlast⟩
          simp only [bresGo, if_neg hdone, if_neg hc1, if_pos hc2]
          have hys : Y - sy * (E - v) + sy = Y - sy * (E - (v + 1)) := by ring
          have herr : D - E + v * D - u * E + D = D - E + (v + 1) * D - u * E := by ring
          rw [hys, herr, hpts]
          rfl

/-- From the initial state of draw_segment_additive, the Bresenham loop
returns its visited points within the standard fuel, ending at (X, Y). -/
theorem bresGo_reaches (x0 y0 X Y : ℤ) :
    ∃ pts, bresGo X Y |X - x0| (-|Y - y0|) (if x0 < X then 1 else -1)
        (if y0 < Y then 1 else -1) (bresFuel x0 y0 X Y) x0 y0 (|X - x0| + -|Y - y0|)
      = some pts ∧ pts.getLast? = some (X, Y) := by
  have hsx : (if x0 < X then (1 : ℤ) else -1) = 1 ∨ (if x0 < X then (1 : ℤ) else -1) = -1 := by
    by_cases hc : x0 < X
    · exact Or.inl (if_pos hc)
    · exact Or.inr (if_neg hc)
  have hsy : (if y0 < Y then (1 : ℤ) else -1) = 1 ∨ (if y0 < Y then (1 : ℤ) else -1) = -1 := by
    by_cases hc : y0 < Y
    · exact Or.inl (if_pos hc)
    · exact Or.inr (if_neg hc)
  have hmeas : (|X - x0| - 0) + (|Y - y0| - 0) < ((bresFuel x0 y0 X Y : ℕ) : ℤ) := by
    unfold bresFuel
    rw [Int.abs_eq_natAbs, Int.abs_eq_natAbs]
    push_cast
    omega
  obtain ⟨pts, hp, hl⟩ := bresGo_total X Y (if x0 < X then 1 else -1) (if y0 < Y then 1 else -1)
    |X - x0| |Y - y0| (abs_nonneg _) (abs_nonneg _) hsx hsy (bresFuel x0 y0 X Y)
    0 0 le_rfl (abs_nonneg _) le_rfl (abs_nonneg _) hmeas
  have ha : X - (if x0 < X then (1 : ℤ) else -1) * (|X - x0| - 0) = x0 := by
    by_cases hc : x0 < X
    · rw [if_pos hc, abs_of_nonneg (by omega : (0 : ℤ) ≤ X - x0)]
      ring
    · rw [if_neg hc, abs_of_nonpos (by omega : X - x0 ≤ 0)]
      ring
  have hb : Y - (if y0 < Y then (1 : ℤ) else -1) * (|Y - y0| - 0) = y0 := by
    by_cases hc : y0 < Y
    · rw [if_pos hc, abs_of_nonneg (by omega : (0 : ℤ) ≤ Y - y0)]
      ring
    · rw [if_neg hc, abs_of_nonpos (by omega : Y - y0 ≤ 0)]
      ring
  have hc0 : |X - x0| - |Y - y0| + 0 * |X - x0| - 0 * |Y - y0| = |X - x0| + -|Y - y0| := by
    ring
  rw [ha, hb, hc0] at hp
  exact ⟨pts, hp, hl⟩

/-- Running the drawing loop equals folding plotPixel over the visited
points, whenever the point loop completes. -/
theorem drawGo_eq_fold (w h : ℕ) (rgb : ℕ × ℕ × ℕ) (X Y dx dy sx sy : ℤ) :
    ∀ (fuel : ℕ) (x y err : ℤ) (frame : List ℕ) (pts : List (ℤ × ℤ)),
      bresGo X Y dx dy sx sy fuel x y err = some pts →
      drawGo w h rgb X Y dx dy sx sy fuel x y err frame
        = pts.foldl (fun fr q => plotPixel w h rgb q.1 q.2 fr) frame := by
  intro fuel
  induction fuel with
  | zero =>
      intro x y err frame pts hp
      simp [bresGo] at hp
  | succ fuel ih =>
      intro x y err frame pts hp
      by_cases hdone : x = X ∧ y = Y
      · simp only [bresGo, if_pos hdone, Option.some.injEq] at hp
        subst hp
        simp only [drawGo, if_pos hdone]
        simp
      · simp only [bresGo, if_neg hdone] at hp
        obtain ⟨pts2, hpts2, hcons⟩ := Option.map_eq_some'.mp hp
        subst hcons
        simp only [drawGo, if_neg hdone]
        rw [ih _ _ _ _ _ hpts2]
        simp

/-- Setting an index of a byte list then reading it back. -/
theorem list_get?_set_self (l : List ℕ) (i : ℕ) (a : ℕ) (h : i < l.length) :
    (l.set i a).get? i = some a := by
  induction l generalizing i with
  | nil => simp at h
  | cons b t ih =>
      cases i with
      | zero => rfl
      | succ j =>
          have hs : (b :: t).set (j + 1) a = b :: t.set j a := rfl
          rw [hs, List.get?_cons_succ]
          exact ih j (by simpa using h)

/-- Setting one index leaves reads at other indices unchanged. -/
theorem list_get?_set_ne (l : List ℕ) (i j : ℕ) (a : ℕ) (h : i ≠ j) :
    (l.set i a).get? j = l.get? j := by
  induction l generalizing i j with
  | nil => rfl
  | cons b t ih =>
      cases i with
      | zero =>
          cases j with
          | zero => exact absurd rfl h
          | succ j2 => rfl
      | succ i2 =>
          cases j with
          | zero => rfl
          | succ j2 =>
              have hs : (b :: t).set (i2 + 1) a = b :: t.set i2 a := rfl
              rw [hs, List.get?_cons_succ, List.get?_cons_succ]
              exact ih i2 j2 (by omega)

/-- Setting one index leaves default-reads at other indices unchanged. -/
theorem list_getD_set_ne (l : List ℕ) (i j : ℕ) (a d : ℕ) (h : i ≠ j) :
    (l.set i a).getD j d = l.getD j d := by
  simp only [List.getD_eq_getElem?_getD, ← List.get?_eq_getElem?]
  rw [list_get?_set_ne l i j a h]

/-- The effect of plotPixel on an in-bounds pixel of a well-sized frame:
each of the three color bytes becomes its saturating sum with the
corresponding channel, and the alpha byte becomes 255. -/
theorem plotPixel_inside (w h : ℕ) (rgb : ℕ × ℕ × ℕ) (x y : ℤ) (fr : List ℕ)
    (hlen : fr.length = w * h * 4)
    (hin : 0 ≤ x ∧ 0 ≤ y ∧ x < (w : ℤ) ∧ y < (h : ℤ)) :
    (plotPixel w h rgb x y fr).get? ((y.toNat * w + x.toNat) * 4)
        = some (satAdd8 (fr.getD ((y.toNat * w + x.toNat) * 4) 0) rgb.1) ∧
    (plotPixel w h rgb x y fr).get? ((y.toNat * w + x.toNat) * 4 + 1)
        = some (satAdd8 (fr.getD ((y.toNat * w + x.toNat) * 4 + 1) 0) rgb.2.1) ∧
    (plotPixel w h rgb x y fr).get? ((y.toNat * w + x.toNat) * 4 + 2)
        = some (satAdd8 (fr.getD ((y.toNat * w + x.toNat) * 4 + 2) 0) rgb.2.2) ∧
    (plotPixel w h rgb x y fr).get? ((y.toNat * w + x.toNat) * 4 + 3) = some 255 := by
  obtain ⟨hx0, hy0, hxw, hyh⟩ := hin
  have hxn : x.toNat < w := by omega
  have hyn : y.toNat < h := by omega
  have hA : y.toNat * w + x.toNat < w * h := by
    calc y.toNat * w + x.toNat < y.toNat * w + w := by omega
      _ = (y.toNat + 1) * w := by ring
      _ ≤ h * w := Nat.mul_le_mul_right w (by omega)
      _ = w * h := Nat.mul_comm h w
  have hidx3 : (y.toNat * w + x.toNat) * 4 + 3 < fr.length := by
    rw [hlen]
    omega
  simp only [plotPixel,
    if_pos (⟨hx0, hy0, hxw, hyh⟩ : 0 ≤ x ∧ 0 ≤ y ∧ x < (w : ℤ) ∧ y < (h : ℤ))]
  refine ⟨?_, ?_, ?_, ?_⟩
  · rw [list_get?_set_ne _ _ _ _ (by omega)]
    rw [list_get?_set_ne _ _ _ _ (by omega)]
    rw [list_get?_set_ne _ _ _ _ (by omega)]
    exact list_get?_set_self _ _ _ (by omega)
  · rw [list_get?_set_ne _ _ _ _ (by omega)]
    rw [list_get?_set_ne _ _ _ _ (by omega)]
    rw [list_get?_set_self _ _ _ (by simp [List.length_set]; omega)]
    rw [list_getD_set_ne _ _ _ _ _ (by omega)]
  · rw [list_get?_set_ne _ _ _ _ (by omega)]
    rw [list_get?_set_self _ _ _ (by simp [List.length_set]; omega)]
    rw [list_getD_set_ne _ _ _ _ _ (by omega)]
    rw [list_getD_set_ne _ _ _ _ _ (by omega)]
  · exact list_get?_set_self _ _ _ (by simp [List.length_set]; omega)

/-- plotPixel is the identity on out-of-bounds coordinates. -/
theorem plotPixel_outside (w h : ℕ) (rgb : ℕ × ℕ × ℕ) (x y : ℤ) (fr : List ℕ)
    (hout : ¬ (0 ≤ x ∧ 0 ≤ y ∧ x < (w : ℤ) ∧ y < (h : ℤ))) :
    plotPixel w h rgb x y fr = fr := by
  simp only [plotPixel, if_neg hout]

/-- Claim C10: the Bresenham stepping loop of draw_segment_additive
terminates for every pair of integer endpoints: within the standard fuel
(one more than the taxicab distance of the truncated endpoints) the
stepped point reaches the truncated second endpoint, which is the last
visited pixel. -/
theorem C10_bres_terminates (p0 p1 : Vec2) :
    ∃ pts, bres_points p0 p1 = some pts ∧
      pts.getLast? = some (castI32 p1.x, castI32 p1.y) := by
  simp only [bres_points]
  exact bresGo_reaches (castI32 p0.x) (castI32 p0.y) (castI32 p1.x) (castI32 p1.y)

/-- Claim C2: draw_segment_additive equals folding plotPixel over the
pixels visited by integer Bresenham stepping between the truncated
endpoints; on every visited pixel inside buffer bounds each of R/G/B is
increased with saturating addition clamped at 255 and alpha is forced to
255, every visited pixel outside bounds is skipped with no buffer write,
and drawing (250,250,250) twice onto a zero pixel yields (255,255,255). -/
theorem C2_draw_additive (frame : List ℕ) (w h : ℕ) (p0 p1 : Vec2) (rgb : ℕ × ℕ × ℕ)
    (hlen : frame.length = w * h * 4) :
    ∃ pts, bres_points p0 p1 = some pts ∧
      draw_segment_additive frame w h p0 p1 rgb
        = pts.foldl (fun fr q => plotPixel w h rgb q.1 q.2 fr) frame ∧
      (∀ (fr : List ℕ) (x y : ℤ), fr.length = w * h * 4 →
        (0 ≤ x ∧ 0 ≤ y ∧ x < (w : ℤ) ∧ y < (h : ℤ)) →
          ((plotPixel w h rgb x y fr).get? ((y.toNat * w + x.toNat) * 4)
              = some (satAdd8 (fr.getD ((y.toNat * w + x.toNat) * 4) 0) rgb.1) ∧
           (plotPixel w h rgb x y fr).get? ((y.toNat * w + x.toNat) * 4 + 1)
              = some (satAdd8 (fr.getD ((y.toNat * w + x.toNat) * 4 + 1) 0) rgb.2.1) ∧
           (plotPixel w h rgb x y fr).get? ((y.toNat * w + x.toNat) * 4 + 2)
              = some (satAdd8 (fr.getD ((y.toNat * w + x.toNat) * 4 + 2) 0) rgb.2.2) ∧
           (plotPixel w h rgb x y fr).get? ((y.toNat * w + x.toNat) * 4 + 3) = some 255)) ∧
      (∀ (fr : List ℕ) (x y : ℤ), ¬ (0 ≤ x ∧ 0 ≤ y ∧ x < (w : ℤ) ∧ y < (h : ℤ)) →
        plotPixel w h rgb x y fr = fr) ∧
      plotPixel 1 1 (250, 250, 250) 0 0 (plotPixel 1 1 (250, 250, 250) 0 0 [0, 0, 0, 0])
        = [255, 255, 255, 255] := by
  obtain ⟨pts, hp, hl⟩ :=
    bresGo_reaches (castI32 p0.x) (castI32 p0.y) (castI32 p1.x) (castI32 p1.y)
  refine ⟨pts, ?_, ?_, ?_, ?_, ?_⟩
  · simp only [bres_points]
    exact hp
  · simp only [draw_segment_additive]
    exact drawGo_eq_fold w h rgb _ _ _ _ _ _ _ _ _ _ frame pts hp
  · intro fr x y hfl hin
    exact plotPixel_inside w h rgb x y fr hfl hin
  · intro fr x y hout
    exact plotPixel_outside w h rgb x y fr hout
  · decide

/-- Witness for C2_draw_additive on a one-pixel frame with both segment
endpoints at the origin. -/
theorem C2_draw_additive_witness :
    ∃ pts, bres_points ⟨0, 0⟩ ⟨0, 0⟩ = some pts ∧
      draw_segment_additive [0, 0, 0, 0] 1 1 ⟨0, 0⟩ ⟨0, 0⟩ (10, 20, 30)
        = pts.foldl (fun fr q => plotPixel 1 1 (10, 20, 30) q.1 q.2 fr) [0, 0, 0, 0] ∧
      (∀ (fr : List ℕ) (x y : ℤ), fr.length = 1 * 1 * 4 →
        (0 ≤ x ∧ 0 ≤ y ∧ x < (1 : ℤ) ∧ y < (1 : ℤ)) →
          ((plotPixel 1 1 (10, 20, 30) x y fr).get? ((y.toNat * 1 + x.toNat) * 4)
              = some (satAdd8 (fr.getD ((y.toNat * 1 + x.toNat) * 4) 0) (10, 20, 30).1) ∧
           (plotPixel 1 1 (10, 20, 30) x y fr).get? ((y.toNat * 1 + x.toNat) * 4 + 1)
              = some (satAdd8 (fr.getD ((y.toNat * 1 + x.toNat) * 4 + 1) 0) (10, 20, 30).2.1) ∧
           (plotPixel 1 1 (10, 20, 30) x y fr).get? ((y.toNat * 1 + x.toNat) * 4 + 2)
              = some (satAdd8 (fr.getD ((y.toNat * 1 + x.toNat) * 4 + 2) 0) (10, 20, 30).2.2) ∧
           (plotPixel 1 1 (10, 20, 30) x y fr).get? ((y.toNat * 1 + x.toNat) * 4 + 3)
              = some 255)) ∧
      (∀ (fr : List ℕ) (x y : ℤ), ¬ (0 ≤ x ∧ 0 ≤ y ∧ x < (1 : ℤ) ∧ y < (1 : ℤ)) →
        plotPixel 1 1 (10, 20, 30) x y fr = fr) ∧
      plotPixel 1 1 (250, 250, 250) 0 0 (plotPixel 1 1 (250, 250, 250) 0 0 [0, 0, 0, 0])
        = [255, 255, 255, 255] :=
  C2_draw_additive [0, 0, 0, 0] 1 1 ⟨0, 0⟩ ⟨0, 0⟩ (10, 20, 30) (by decide)

/-- One sub-step preserves the alive flag. -/
theorem subStep_alive (dirAt : Vec2 → Vec2) (force friction : ℚ) (p : Particle) :
    (subStep dirAt force friction p).alive = p.alive := rfl

/-- The sub-step loop result for a particle does not depend on the frame
buffer it draws into. -/
theorem stepLoop_fst_frame_indep (ctx : StepCtx) :
    ∀ (n : ℕ) (p : Particle) (f g : List ℕ),
      (stepLoop ctx n p f).1 = (stepLoop ctx n p g).1 := by
  intro n
  induction n with
  | zero =>
      intro p f g
      rfl
  | succ n ih =>
      intro p f g
      simp only [stepLoop]
      by_cases hout :
          outsideMargin ctx.width ctx.height (subStep ctx.dirAt ctx.force ctx.friction p).pos = true
      · rw [if_pos hout, if_pos hout]
      · rw [if_neg hout, if_neg hout]
        exact ih _ _ _

/-- For an alive particle, the sub-step loop marks it dead exactly when
some post-step position along its (frame-many) trajectory leaves the
margin-expanded canvas; the loop stops at the first such step. -/
theorem stepLoop_alive_iff (ctx : StepCtx) :
    ∀ (n : ℕ) (p : Particle) (frame : List ℕ), p.alive = true →
      ((stepLoop ctx n p frame).1.alive = false ↔
        ∃ k, k < n ∧ outsideMargin ctx.width ctx.height
          ((subStep ctx.dirAt ctx.force ctx.friction)^[k + 1] p).pos = true) := by
  intro n
  induction n with
  | zero =>
      intro p frame hal
      simp [stepLoop, hal]
  | succ n ih =>
      intro p frame hal
      simp only [stepLoop]
      by_cases hout :
          outsideMargin ctx.width ctx.height (subStep ctx.dirAt ctx.force ctx.friction p).pos = true
      · rw [if_pos hout]
        constructor
        · intro _
          exact ⟨0, by omega, by simpa [Function.iterate_one] using hout⟩
        · intro _
          rfl
      · rw [if_neg hout]
        have hal1 : (subStep ctx.dirAt ctx.force ctx.friction p).alive = true := by
          rw [subStep_alive]
          exact hal
        rw [ih (subStep ctx.dirAt ctx.force ctx.friction p) _ hal1]
        constructor
        · rintro ⟨k, hk, hko⟩
          refine ⟨k + 1, by omega, ?_⟩
          rw [← Function.iterate_succ_apply] at hko
          exact hko
        · rintro ⟨k, hk, hko⟩
          cases k with
          | zero =>
              exfalso
              rw [Function.iterate_one] at hko
              exact hout hko
          | succ k2 =>
              refine ⟨k2, by omega, ?_⟩
              rw [← Function.iterate_succ_apply]
              exact hko

/-- step_particles maps every particle of the population through its own
pure step; an early exit of one particle never skips another. -/
theorem step_particles_fst_map (ctx : StepCtx) :
    ∀ (ps : List Particle) (frame : List ℕ),
      (step_particles ctx ps frame).1 = ps.map (particleStep ctx) := by
  intro ps
  induction ps with
  | nil =>
      intro frame
      rfl
  | cons p rest ih =>
      intro frame
      by_cases hal : p.alive = true
      · have hred : (step_particles ctx (p :: rest) frame).1
            = (stepLoop ctx ctx.steps_per_frame p frame).1
              :: (step_particles ctx rest (stepLoop ctx ctx.steps_per_frame p frame).2).1 := by
          simp only [step_particles, if_pos hal]
        rw [hred, ih, List.map_cons]
        congr 1
        rw [particleStep, if_pos hal]
        exact stepLoop_fst_frame_indep ctx _ p frame []
      · have hred : (step_particles ctx (p :: rest) frame).1
            = p :: (step_particles ctx rest frame).1 := by
          simp only [step_particles, if_neg hal]
        rw [hred, ih, List.map_cons]
        congr 1
        rw [particleStep, if_neg hal]

/-- Claim C3: a dead particle is skipped whole (its slot and the frame
are untouched at its turn, so it is never stepped or drawn again until a
spawn reuses its slot); an alive particle is marked not-alive within the
frame exactly when one of its post-step positions leaves the canvas
bounds expanded by the margin 10, remaining sub-steps being skipped; and
the per-frame result of every particle is independent of the others (an
early exit never skips other particles). -/
theorem C3_lifecycle (ctx : StepCtx) (p : Particle) (ps : List Particle)
    (frame : List ℕ) (n : ℕ) :
    (p.alive = false →
      step_particles ctx (p :: ps) frame
        = (p :: (step_particles ctx ps frame).1, (step_particles ctx ps frame).2)) ∧
    (p.alive = true →
      ((stepLoop ctx n p frame).1.alive = false ↔
        ∃ k, k < n ∧ outsideMargin ctx.width ctx.height
          ((subStep ctx.dirAt ctx.force ctx.friction)^[k + 1] p).pos = true)) ∧
    (step_particles ctx ps frame).1 = ps.map (particleStep ctx) := by
  refine ⟨?_, ?_, step_particles_fst_map ctx ps frame⟩
  · intro hal
    have hneg : ¬ (p.alive = true) := by simp [hal]
    simp only [step_particles, if_neg hneg]
  · intro hal
    exact stepLoop_alive_iff ctx n p frame hal

/-- Witness for C3_lifecycle: the demo dead slot is skipped whole, and
for a fresh particle blown right with speed 20 on the 5 by 5 demo canvas
the death test is equivalent to a post-step position escaping the
margin. -/
theorem C3_lifecycle_witness :
    (step_particles demoCtx (demoDead :: []) []
        = (demoDead :: (step_particles demoCtx [] []).1, (step_particles demoCtx [] []).2)) ∧
    ((stepLoop demoCtx 2 (Particle.new ⟨0, 0⟩) []).1.alive = false ↔
      ∃ k, k < 2 ∧ outsideMargin demoCtx.width demoCtx.height
        ((subStep demoCtx.dirAt demoCtx.force demoCtx.friction)^[k + 1]
          (Particle.new ⟨0, 0⟩)).pos = true) :=
  ⟨(C3_lifecycle demoCtx demoDead [] [] 2).1 rfl,
   (C3_lifecycle demoCtx (Particle.new ⟨0, 0⟩) [] [] 2).2.1 rfl⟩
